import Mathlib

/-!
Shallow embedding of `Edge_Detection.py` (ant-colony edge detection).

Conventions of the embedding:
* Pixel samples are naturals, pheromone / intensity values are rationals.
* The exponents `alpha`, `beta` (Python floats, non-negative per the
  configuration contract) are modelled as naturals, since real-valued
  exponentiation is not available on `ℚ`; `x ** 0 = 1` matches Python.
* Randomness is made explicit: the shuffled direction order, the relocation
  target and the placement sample stream are parameters of the functions
  that consume them in the Python source.
* The `m + 1` pheromone layers are a function `ℕ → ℕ → ℕ → ℚ`
  (row, col, layer); layer `m` is the Python index `-1` (the total layer).
-/

/-- A grid coordinate, `(row, col)`. -/
abbrev Pos : Type := ℕ × ℕ

/-- State of `Colony.Ant`: position, the keys of the `OrderedDict`
`pos_memory` in insertion order (all stored values are `None`), and the
cosmetic `special` flag. -/
structure AntState where
  row : ℕ
  col : ℕ
  pos_memory : List Pos
  special : Bool
deriving DecidableEq, Repr

/-- State of `Colony`: both grids, the ants, and the constants set in
`Colony.__init__`. -/
structure ColonyState where
  rows : ℕ
  cols : ℕ
  intensities : ℕ → ℕ → ℚ
  pheromone : ℕ → ℕ → ℕ → ℚ
  ants : List AntState
  alpha : ℕ
  beta : ℕ
  p : ℚ
  b : ℚ
  m : ℕ
  ant_mem : ℕ
  tau_min : ℚ
  memory_index : ℕ

/-- The eight compass offsets `Colony.directions`, in declaration order
`[N, NE, E, SE, S, SW, W, NW]`. -/
def Colony.directions : List (ℤ × ℤ) :=
  [(-1, 0), (-1, 1), (0, 1), (1, 1), (1, 0), (1, -1), (0, -1), (-1, -1)]

/-- `Colony.Ant.index_probability`: `pheromone[row, col, -1] ** alpha *
intensities[row, col] ** beta` (layer `-1` is layer `m`). -/
def Colony.Ant.index_probability (s : ColonyState) (idx : Pos) : ℚ :=
  s.pheromone idx.1 idx.2 s.m ^ s.alpha * s.intensities idx.1 idx.2 ^ s.beta

/-- The loop body of `Colony.Ant.get_index_probabilities`: walk the shuffled
direction list, drop offsets that leave the grid
(`x < 0 or x >= shape[0] or y < 0 or y >= shape[1]`), and record the
surviving positions together with their weights, in enumeration order. -/
def candidateScan (s : ColonyState) (row col : ℕ) : List (ℤ × ℤ) → List ℚ × List Pos
  | [] => ([], [])
  | d :: ds =>
    let x : ℤ := (row : ℤ) + d.1
    let y : ℤ := (col : ℤ) + d.2
    if x < 0 ∨ (s.rows : ℤ) ≤ x ∨ y < 0 ∨ (s.cols : ℤ) ≤ y then
      candidateScan s row col ds
    else
      let rest := candidateScan s row col ds
      (Colony.Ant.index_probability s (x.toNat, y.toNat) :: rest.1,
        (x.toNat, y.toNat) :: rest.2)

/-- `Colony.Ant.get_index_probabilities`, with the freshly randomized
direction order (`random.sample(directions, 8)`) supplied explicitly as
`order`. -/
def Colony.Ant.get_index_probabilities (s : ColonyState) (a : AntState)
    (order : List (ℤ × ℤ)) : List ℚ × List Pos :=
  candidateScan s a.row a.col order

/-- One key assignment `d[k] = v` of a Python `dict` kept as an association
list in key insertion order: an existing key keeps its place and gets the
new value, a fresh key is appended. -/
def dictInsert : List (ℚ × Pos) → ℚ × Pos → List (ℚ × Pos)
  | [], kv => [kv]
  | e :: d, kv => if e.1 = kv.1 then kv :: d else e :: dictInsert d kv

/-- `dict(zip(probabilities, positions))`: fold the pairs through
`dictInsert`, so a repeated probability keeps its first position in the key
order but ends up mapped to the **last** position zipped with it. -/
def pyDict (ps : List (ℚ × Pos)) : List (ℚ × Pos) :=
  ps.foldl dictInsert []

/-- Lookup `d[k]` in the association list (total: `none` if absent,
which `Colony.Ant.max` only ever hits on keys taken from `d` itself). -/
def assocGet : List (ℚ × Pos) → ℚ → Option Pos
  | [], _ => none
  | e :: d, k => if e.1 = k then some e.2 else assocGet d k

/-- The scanning loop of `Colony.Ant.max`: walk the sorted key list and
return the first mapped position that is not in `pos_memory`; `None` if the
keys run out. -/
def maxScan (mem : List Pos) (d : List (ℚ × Pos)) : List ℚ → Option Pos
  | [] => none
  | k :: ks =>
    match assocGet d k with
    | some q => if q ∈ mem then maxScan mem d ks else some q
    | none => maxScan mem d ks

/-- `Colony.Ant.max`: sort the dict's keys in descending order
(`keys.sort(reverse=True)`; the keys of a dict are pairwise distinct, so
every descending sort yields the same list) and scan them. -/
def Colony.Ant.max (mem : List Pos) (d : List (ℚ × Pos)) : Option Pos :=
  maxScan mem d (List.insertionSort (· ≥ ·) (d.map Prod.fst))

/-- `Colony.Ant.get_max_probability_pos`.

When `denominator == 0` every numerator is `0.0` (weights are non-negative
in every state the program builds), so in Python each division `0.0 / 0.0`
on `numpy.float64` yields `nan` with a `RuntimeWarning` — no exception.
The `nan` keys are pairwise unequal, so `dict(zip(..))` keeps all
candidates; `list.sort(reverse=True)` never reorders a list whose elements
are pairwise incomparable, so the scan in `Ant.max` visits the candidates
in production order and returns the first one not in `pos_memory`.  That
branch is written out directly below; the `denominator ≠ 0` branch is the
literal dict-build / key-sort / scan pipeline. -/
def Colony.Ant.get_max_probability_pos (s : ColonyState) (a : AntState)
    (order : List (ℤ × ℤ)) : Option Pos :=
  let np := Colony.Ant.get_index_probabilities s a order
  let denominator := np.1.sum
  if denominator = 0 then
    np.2.find? (fun q => decide (q ∉ a.pos_memory))
  else
    let probabilities := np.1.map (fun x => x / denominator)
    Colony.Ant.max a.pos_memory (pyDict (probabilities.zip np.2))

/-- `Colony.Ant.update_memory`: record the key `(row, col)` in the
`OrderedDict` (an existing key keeps its position; a fresh key is appended),
then `popitem(last=False)` — drop the oldest entry — when the size exceeds
`ant_mem`. -/
def Colony.Ant.update_memory (mem : List Pos) (pos : Pos) (cap : ℕ) : List Pos :=
  let m1 := if pos ∈ mem then mem else mem ++ [pos]
  if cap < m1.length then m1.drop 1 else m1

/-- `Colony.Ant.deposit_pheromone`, with the two `random.randrange` draws of
a relocation target supplied as `reloc` (at most one of the two Python call
sites executes in a given step).  Returns the updated ant together with the
(possibly updated) pheromone grid. -/
def Colony.Ant.deposit_pheromone (s : ColonyState) (a : AntState)
    (order : List (ℤ × ℤ)) (reloc : Pos) : AntState × (ℕ → ℕ → ℕ → ℚ) :=
  let a1 : AntState :=
    { a with pos_memory := Colony.Ant.update_memory a.pos_memory (a.row, a.col) s.ant_mem }
  match Colony.Ant.get_max_probability_pos s a1 order with
  | none => ({ a1 with row := reloc.1, col := reloc.2 }, s.pheromone)
  | some pos =>
    if s.b ≤ s.intensities pos.1 pos.2 then
      ({ a1 with row := pos.1, col := pos.2 },
        fun i j l =>
          if i = pos.1 ∧ j = pos.2 ∧ l = s.memory_index then
            s.intensities pos.1 pos.2
          else s.pheromone i j l)
    else
      ({ a1 with row := reloc.1, col := reloc.2 }, s.pheromone)

/-- One call `ant.deposit_pheromone()` for the ant at index `i` of
`colony.ants`, lifted to the colony state. -/
def Colony.antStep (s : ColonyState) (i : ℕ) (order : List (ℤ × ℤ))
    (reloc : Pos) : ColonyState :=
  match s.ants[i]? with
  | none => s
  | some a =>
    let r := Colony.Ant.deposit_pheromone s a order reloc
    { s with ants := s.ants.set i r.1, pheromone := r.2 }

/-- The sum `sum(deltas)` of the `m` memory layers of one cell
(`pheromone[i, j, :-1]`). -/
def memSum (s : ColonyState) (i j : ℕ) : ℚ :=
  ((List.range s.m).map (fun l => s.pheromone i j l)).sum

/-- `Colony.adjust_pheromone`: first advance `memory_index`
(`0` if `memory_index >= m - 1`, else `+ 1`), then for every in-bounds cell
set the total layer to `max((1 - p) * old_total + sum(memory layers),
tau_min)` and zero that cell's memory layer at the **advanced** index.
Each cell's two writes touch only that cell, so the in-place loop is the
pointwise update below; the write to layer `memory_index` happens after the
write to layer `m`, hence the `l = idx` test comes first (they only
coincide when `m = 0`). -/
def Colony.adjust_pheromone (s : ColonyState) : ColonyState :=
  let idx := if s.m - 1 ≤ s.memory_index then 0 else s.memory_index + 1
  { s with
    memory_index := idx
    pheromone := fun i j l =>
      if i < s.rows ∧ j < s.cols then
        if l = idx then 0
        else if l = s.m then
          max ((1 - s.p) * s.pheromone i j s.m + memSum s i j) s.tau_min
        else s.pheromone i j l
      else s.pheromone i j l }

/-- The ant loop of one iteration: `for ant in self.ants:
ant.deposit_pheromone()`, ants stepping sequentially in creation order,
each seeing the deposits of the earlier ones.  `chooser i` supplies the
random direction order and relocation target for ant `i`. -/
def Colony.stepAnts (s : ColonyState) (chooser : ℕ → List (ℤ × ℤ) × Pos) : ColonyState :=
  (List.range s.ants.length).foldl
    (fun st i => Colony.antStep st i (chooser i).1 (chooser i).2) s

/-- `Colony.iterate`: each iteration steps every ant and then calls
`adjust_pheromone` exactly once.  The snapshot export on every 10th
iteration only reads a copy of the field (`convert_to_gray` works on
`arr.copy()`), so it does not appear in the state transition.
`choices t i` supplies the randomness for ant `i` in iteration `t`. -/
def Colony.iterate (s : ColonyState) (choices : ℕ → ℕ → List (ℤ × ℤ) × Pos) :
    ℕ → ColonyState
  | 0 => s
  | t + 1 =>
    Colony.adjust_pheromone (Colony.stepAnts (Colony.iterate s choices t) (choices t))

/-- The pheromone grid built in `Colony.__init__`: `np.zeros` of shape
`(rows, cols, m + 1)`, then the total layer of every in-bounds cell set to
`tau_min`. -/
def Colony.initPheromone (rows cols m : ℕ) (tau_min : ℚ) : ℕ → ℕ → ℕ → ℚ :=
  fun i j l => if l = m ∧ i < rows ∧ j < cols then tau_min else 0

/-- The colony state as `Colony.__init__` leaves it: fresh pheromone grid,
`memory_index = 0`.  The intensity grid and the ant list (whose random
placement is modelled separately by `Colony.placeLoop`) are parameters. -/
def Colony.init (rows cols : ℕ) (intensities : ℕ → ℕ → ℚ) (ants : List AntState)
    (alpha beta : ℕ) (p b : ℚ) (m ant_mem : ℕ) (tau_min : ℚ) : ColonyState :=
  { rows := rows, cols := cols, intensities := intensities
    pheromone := Colony.initPheromone rows cols m tau_min
    ants := ants, alpha := alpha, beta := beta, p := p, b := b
    m := m, ant_mem := ant_mem, tau_min := tau_min, memory_index := 0 }

/-- The unique-placement rejection sampling of `Colony.__init__`: for each
of `remaining` ants, draw coordinates from `stream` (one draw per inner
`while` pass, `stream k` being the `k`-th draw) until one is not yet in
`pairs`.  `fuel` bounds the number of draws; the Python loop corresponds to
unbounded fuel, so it terminates exactly when some finite fuel suffices. -/
def Colony.placeLoop (stream : ℕ → Pos) :
    ℕ → ℕ → List Pos → ℕ → Option (List Pos)
  | _, 0, pairs, _ => some pairs
  | 0, _ + 1, _, _ => none
  | fuel + 1, r + 1, pairs, k =>
    let pr := stream k
    if pr ∈ pairs then Colony.placeLoop stream fuel (r + 1) pairs (k + 1)
    else Colony.placeLoop stream fuel r (pairs ++ [pr]) (k + 1)

/-- The placement loop of `Colony.__init__` terminates on the draw sequence
`stream`: some finite number of draws places all `antCount` ants on
pairwise distinct cells. -/
def Colony.placementTerminates (antCount : ℕ) (stream : ℕ → Pos) : Prop :=
  ∃ fuel, (Colony.placeLoop stream fuel antCount [] 0).isSome = true

/-- The global maximum sample value `img.max()` over the `rows × cols`
grid. -/
def Colony.img_max (rows cols : ℕ) (img : ℕ → ℕ → ℕ) : ℕ :=
  ((List.range rows).flatMap (fun i => (List.range cols).map (img i))).foldr Nat.max 0

/-- `Colony.pixel_intensity`: `(1 / i_max) * max` of the four guarded
absolute one-step differences (both diagonals, horizontal, vertical; a
direction whose endpoints leave the grid contributes `0`).  `1 / i_max`
divides by zero when `i_max = 0` (in Python, `numpy` integer division by
zero yields no rational value, only `inf`/`nan`), so the result is an
`Option`: `none` exactly when `i_max = 0`. -/
def Colony.pixel_intensity (rows cols : ℕ) (img : ℕ → ℕ → ℕ) (i_max : ℕ)
    (row col : ℕ) : Option ℚ :=
  if i_max = 0 then none
  else
    let d1 : ℕ :=
      if 1 ≤ row ∧ 1 ≤ col ∧ row + 1 < rows ∧ col + 1 < cols then
        ((img (row - 1) (col - 1) : ℤ) - (img (row + 1) (col + 1) : ℤ)).natAbs
      else 0
    let d2 : ℕ :=
      if 1 ≤ row ∧ 1 ≤ col ∧ row + 1 < rows ∧ col + 1 < cols then
        ((img (row - 1) (col + 1) : ℤ) - (img (row + 1) (col - 1) : ℤ)).natAbs
      else 0
    let d3 : ℕ :=
      if 1 ≤ col ∧ col + 1 < cols then
        ((img row (col - 1) : ℤ) - (img row (col + 1) : ℤ)).natAbs
      else 0
    let d4 : ℕ :=
      if 1 ≤ row ∧ row + 1 < rows then
        ((img (row - 1) col : ℤ) - (img (row + 1) col : ℤ)).natAbs
      else 0
    some ((1 / (i_max : ℚ)) * (Nat.max (Nat.max (Nat.max d1 d2) d3) d4 : ℕ))

/-- The operational steps a colony state can take after construction: any
single ant stepping (with any direction order and relocation target), or
one consolidation.  `Reach s t`: `t` arises from `s` by some finite
sequence of such operations. -/
inductive Reach : ColonyState → ColonyState → Prop
  | refl (s : ColonyState) : Reach s s
  | ant {s t : ColonyState} (i : ℕ) (order : List (ℤ × ℤ)) (reloc : Pos)
      (h : Reach s t) : Reach s (Colony.antStep t i order reloc)
  | adjust {s t : ColonyState} (h : Reach s t) : Reach s (Colony.adjust_pheromone t)

/-! ### Helper lemmas -/

/-- Once the cell `(0,0)` has been taken, the rejection-sampling loop fed by
the constant stream `(0,0)` can never place another ant. -/
theorem placeLoop_const_stuck (fuel : ℕ) :
    ∀ (r k : ℕ) (pairs : List Pos), ((0, 0) : Pos) ∈ pairs →
      Colony.placeLoop (fun _ => ((0, 0) : Pos)) fuel (r + 1) pairs k = none := by
  induction fuel with
  | zero => intro r k pairs _; rfl
  | succ fuel ih =>
    intro r k pairs h
    simp only [Colony.placeLoop, if_pos h]
    exact ih r (k + 1) pairs h

/-- Every element of a list of naturals is bounded by the `Nat.max` fold. -/
theorem le_foldr_nat_max {l : List ℕ} {x : ℕ} (h : x ∈ l) : x ≤ l.foldr Nat.max 0 := by
  induction l with
  | nil => cases h
  | cons a l ih =>
    rcases List.mem_cons.mp h with h | h
    · subst h; exact Nat.le_max_left _ _
    · exact le_trans (ih h) (Nat.le_max_right _ _)

/-- Every in-bounds pixel sample is bounded by `img.max()`. -/
theorem le_img_max {rows cols i j : ℕ} (img : ℕ → ℕ → ℕ)
    (hi : i < rows) (hj : j < cols) : img i j ≤ Colony.img_max rows cols img := by
  apply le_foldr_nat_max
  simp only [Colony.img_max, List.mem_flatMap, List.mem_map, List.mem_range]
  exact ⟨i, hi, j, hj, rfl⟩

/-- The absolute difference of two naturals is at most their maximum. -/
theorem natAbs_sub_le_max (a b : ℕ) : ((a : ℤ) - (b : ℤ)).natAbs ≤ Nat.max a b := by
  simp only [Nat.max_def]
  split <;> omega

/-! ### Claims -/

/-- C5: `Colony.__init__` has no precondition check on `ant_count`; with
`ant_count = 2` ants requested on a `1 × 1` grid (whose only possible draw
is `(0,0)`), the unique-placement rejection-sampling loop never terminates,
no matter how many draws it is allowed — it hangs instead of failing fast.
With `ant_count = 1 = rows × cols` the same loop terminates. -/
theorem C5_placement_hangs :
    ¬ Colony.placementTerminates 2 (fun _ => ((0, 0) : Pos)) ∧
      Colony.placementTerminates 1 (fun _ => ((0, 0) : Pos)) := by
  constructor
  · rintro ⟨fuel, hf⟩
    cases fuel with
    | zero => simp [Colony.placeLoop] at hf
    | succ fuel =>
      have h1 : Colony.placeLoop (fun _ => ((0, 0) : Pos)) (fuel + 1) 2 [] 0 =
          Colony.placeLoop (fun _ => ((0, 0) : Pos)) fuel 1 [(0, 0)] 1 := by
        simp [Colony.placeLoop]
      rw [h1, placeLoop_const_stuck fuel 0 1 [(0, 0)] (by simp)] at hf
      simp at hf
  · exact ⟨2, by rfl⟩

/-- C10: colony construction needs `i_max > 0`.  With the global maximum
sample value positive, every computed pixel intensity is a well-defined
rational in `[0, 1]`; for an all-zero image (`i_max = 0`) the per-pixel
computation divides by zero and yields no well-defined value. -/
theorem C10_intensity_defined (rows cols : ℕ) (img : ℕ → ℕ → ℕ) (row col : ℕ) :
    (Colony.img_max rows cols img = 0 →
      Colony.pixel_intensity rows cols img (Colony.img_max rows cols img) row col = none) ∧
    (0 < Colony.img_max rows cols img → row < rows → col < cols →
      ∃ v, Colony.pixel_intensity rows cols img (Colony.img_max rows cols img) row col
          = some v ∧ 0 ≤ v ∧ v ≤ 1) := by
  constructor
  · intro h
    simp [Colony.pixel_intensity, h]
  · intro hM hr hc
    set M := Colony.img_max rows cols img with hMdef
    have hM0 : M ≠ 0 := Nat.pos_iff_ne_zero.mp hM
    set d1 : ℕ :=
      if 1 ≤ row ∧ 1 ≤ col ∧ row + 1 < rows ∧ col + 1 < cols then
        ((img (row - 1) (col - 1) : ℤ) - (img (row + 1) (col + 1) : ℤ)).natAbs
      else 0 with hd1
    set d2 : ℕ :=
      if 1 ≤ row ∧ 1 ≤ col ∧ row + 1 < rows ∧ col + 1 < cols then
        ((img (row - 1) (col + 1) : ℤ) - (img (row + 1) (col - 1) : ℤ)).natAbs
      else 0 with hd2
    set d3 : ℕ :=
      if 1 ≤ col ∧ col + 1 < cols then
        ((img row (col - 1) : ℤ) - (img row (col + 1) : ℤ)).natAbs
      else 0 with hd3
    set d4 : ℕ :=
      if 1 ≤ row ∧ row + 1 < rows then
        ((img (row - 1) col : ℤ) - (img (row + 1) col : ℤ)).natAbs
      else 0 with hd4
    have pix (i j : ℕ) (hi : i < rows) (hj : j < cols) : img i j ≤ M :=
      le_img_max img hi hj
    have h1 : d1 ≤ M := by
      rw [hd1]; split
      · rename_i hg
        refine le_trans (natAbs_sub_le_max _ _) (Nat.max_le.mpr ⟨?_, ?_⟩)
        · exact pix _ _ (by omega) (by omega)
        · exact pix _ _ (by omega) (by omega)
      · exact Nat.zero_le _
    have h2 : d2 ≤ M := by
      rw [hd2]; split
      · rename_i hg
        refine le_trans (natAbs_sub_le_max _ _) (Nat.max_le.mpr ⟨?_, ?_⟩)
        · exact pix _ _ (by omega) (by omega)
        · exact pix _ _ (by omega) (by omega)
      · exact Nat.zero_le _
    have h3 : d3 ≤ M := by
      rw [hd3]; split
      · rename_i hg
        refine le_trans (natAbs_sub_le_max _ _) (Nat.max_le.mpr ⟨?_, ?_⟩)
        · exact pix _ _ hr (by omega)
        · exact pix _ _ hr (by omega)
      · exact Nat.zero_le _
    have h4 : d4 ≤ M := by
      rw [hd4]; split
      · rename_i hg
        refine le_trans (natAbs_sub_le_max _ _) (Nat.max_le.mpr ⟨?_, ?_⟩)
        · exact pix _ _ (by omega) hc
        · exact pix _ _ (by omega) hc
      · exact Nat.zero_le _
    have hD : Nat.max (Nat.max (Nat.max d1 d2) d3) d4 ≤ M := by
      exact Nat.max_le.mpr ⟨Nat.max_le.mpr ⟨Nat.max_le.mpr ⟨h1, h2⟩, h3⟩, h4⟩
    refine ⟨(1 / (M : ℚ)) * ((Nat.max (Nat.max (Nat.max d1 d2) d3) d4 : ℕ) : ℚ),
      ?_, ?_, ?_⟩
    · simp only [Colony.pixel_intensity, hM0, if_false, ← hd1, ← hd2, ← hd3, ← hd4]
    · positivity
    · have hcast : ((Nat.max (Nat.max (Nat.max d1 d2) d3) d4 : ℕ) : ℚ) ≤ (M : ℚ) := by
        exact_mod_cast hD
      have hstep : (1 / (M : ℚ)) * ((Nat.max (Nat.max (Nat.max d1 d2) d3) d4 : ℕ) : ℚ) ≤
          (1 / (M : ℚ)) * (M : ℚ) := by
        apply mul_le_mul_of_nonneg_left hcast
        positivity
      have hone : (1 / (M : ℚ)) * (M : ℚ) = 1 := by
        field_simp
      rw [hone] at hstep
      exact hstep

/-- A concrete `2 × 2` checkerboard image with `i_max = 1`. -/
def exImg : ℕ → ℕ → ℕ := fun i j => if i = j then 0 else 1

/-- Witness for C10 at the checkerboard image and pixel `(0, 0)`. -/
theorem C10_intensity_defined_witness :
    0 < Colony.img_max 2 2 exImg ∧
      ∃ v, Colony.pixel_intensity 2 2 exImg (Colony.img_max 2 2 exImg) 0 0 = some v ∧
        0 ≤ v ∧ v ≤ 1 :=
  ⟨by decide, (C10_intensity_defined 2 2 exImg 0 0).2 (by decide) (by decide) (by decide)⟩

/-- The consolidation step exactly as claim C1 words it (spec-side
definition for the refinement comparison): for every cell the total layer
becomes `max((1-p)*oldTotal + sum of memory layers, tau_min)`, then the
memory layer at the **current** rotating index is zeroed, and finally the
index advances to `(idx+1) mod m`. -/
def specConsolidateC1 (s : ColonyState) : ColonyState :=
  { s with
    memory_index := (s.memory_index + 1) % s.m
    pheromone := fun i j l =>
      if i < s.rows ∧ j < s.cols then
        if l = s.m then
          max ((1 - s.p) * s.pheromone i j s.m + memSum s i j) s.tau_min
        else if l = s.memory_index then 0
        else s.pheromone i j l
      else s.pheromone i j l }

/-- A `1 × 1` colony with `m = 2` memory layers holding `5` and `3`,
rotating index `0`, total layer `2`. -/
def exC1 : ColonyState :=
  { rows := 1, cols := 1, intensities := fun _ _ => 0
    pheromone := fun _ _ l => if l = 0 then 5 else if l = 1 then 3 else if l = 2 then 2 else 0
    ants := [], alpha := 1, beta := 1, p := 0, b := 1, m := 2, ant_mem := 1
    tau_min := 1 / 10, memory_index := 0 }

/-- C1 counterexample: on `exC1` the code zeroes the memory layer at the
**advanced** index `1` and leaves layer `0` (the current index, which the
claim says is zeroed) at `5`; the claim-side consolidation instead zeroes
layer `0` and keeps layer `1 = 3`. -/
theorem C1_consolidation_cex :
    (Colony.adjust_pheromone exC1).pheromone 0 0 0 = 5 ∧
      (Colony.adjust_pheromone exC1).pheromone 0 0 1 = 0 ∧
      (specConsolidateC1 exC1).pheromone 0 0 0 = 0 ∧
      (specConsolidateC1 exC1).pheromone 0 0 1 = 3 ∧
      Colony.adjust_pheromone exC1 ≠ specConsolidateC1 exC1 := by
  refine ⟨by decide, by decide, by decide, by decide, fun h => ?_⟩
  have h0 := congrArg (fun t => t.pheromone 0 0 0) h
  simp only at h0
  exact absurd h0 (by decide)

/-- C1 (amended): consolidation runs exactly once per iteration, after all
ants have stepped; it **first** advances the rotating index to
`(idx + 1) mod m`, and then for every cell sets the total layer to
`max((1-p)*oldTotal + sum of all m memory layers, tau_min)` and zeroes that
cell's memory layer at the **advanced** index, leaving the other memory
layers unchanged. -/
theorem C1_consolidation (s : ColonyState) (hm : s.memory_index < s.m) :
    (Colony.adjust_pheromone s).memory_index = (s.memory_index + 1) % s.m ∧
      (∀ i j, i < s.rows → j < s.cols →
        (Colony.adjust_pheromone s).pheromone i j s.m =
            max ((1 - s.p) * s.pheromone i j s.m + memSum s i j) s.tau_min ∧
          (Colony.adjust_pheromone s).pheromone i j ((s.memory_index + 1) % s.m) = 0 ∧
          ∀ l, l < s.m → l ≠ (s.memory_index + 1) % s.m →
            (Colony.adjust_pheromone s).pheromone i j l = s.pheromone i j l) ∧
      (∀ choices t, Colony.iterate s choices (t + 1) =
        Colony.adjust_pheromone (Colony.stepAnts (Colony.iterate s choices t) (choices t))) := by
  have hm1 : 1 ≤ s.m := by omega
  have hidx : (if s.m - 1 ≤ s.memory_index then 0 else s.memory_index + 1) =
      (s.memory_index + 1) % s.m := by
    split
    · have hx : s.memory_index = s.m - 1 := by omega
      have : s.memory_index + 1 = s.m := by omega
      rw [this, Nat.mod_self]
    · have : s.memory_index + 1 < s.m := by omega
      rw [Nat.mod_eq_of_lt this]
  have hlt : (s.memory_index + 1) % s.m < s.m := Nat.mod_lt _ (by omega)
  refine ⟨?_, ?_, fun _ _ => rfl⟩
  · simp only [Colony.adjust_pheromone, hidx]
  · intro i j hi hj
    refine ⟨?_, ?_, ?_⟩
    · simp only [Colony.adjust_pheromone, hidx]
      rw [if_pos ⟨hi, hj⟩, if_neg (show ¬s.m = (s.memory_index + 1) % s.m by omega)]
      simp
    · simp only [Colony.adjust_pheromone, hidx]
      rw [if_pos ⟨hi, hj⟩]
      simp
    · intro l hl hne
      simp only [Colony.adjust_pheromone, hidx]
      rw [if_pos ⟨hi, hj⟩, if_neg hne, if_neg (show ¬l = s.m by omega)]

/-- Witness for C1 at `exC1` (`memory_index = 0 < m = 2`): the advanced
index is `1 % 2 = 1`. -/
theorem C1_consolidation_witness :
    exC1.memory_index < exC1.m ∧
      (Colony.adjust_pheromone exC1).memory_index = (exC1.memory_index + 1) % exC1.m :=
  ⟨by decide, (C1_consolidation exC1 (by decide)).1⟩

/-- C6: in every ant step whose selection routine returned a candidate
`pos`: if the candidate's intensity is at least `b`, the ant moves to `pos`
and the memory layer at the colony's current rotating index at that cell is
**overwritten** with that cell's intensity value; if the intensity is below
`b`, the ant instead relocates to the supplied random coordinate and the
pheromone grid is unchanged.  (In both branches the taboo memory was
already extended with the ant's pre-step position, as `deposit_pheromone`
calls `update_memory` first.) -/
theorem C6_threshold_branch (s : ColonyState) (a : AntState)
    (order : List (ℤ × ℤ)) (reloc pos : Pos)
    (hsel : Colony.Ant.get_max_probability_pos s
        { a with pos_memory := Colony.Ant.update_memory a.pos_memory (a.row, a.col)
                                 s.ant_mem }
        order = some pos) :
    (s.b ≤ s.intensities pos.1 pos.2 →
      Colony.Ant.deposit_pheromone s a order reloc =
        ({ a with row := pos.1, col := pos.2
                  pos_memory := Colony.Ant.update_memory a.pos_memory (a.row, a.col)
                                  s.ant_mem },
          fun i j l =>
            if i = pos.1 ∧ j = pos.2 ∧ l = s.memory_index then s.intensities pos.1 pos.2
            else s.pheromone i j l)) ∧
    (s.intensities pos.1 pos.2 < s.b →
      Colony.Ant.deposit_pheromone s a order reloc =
        ({ a with row := reloc.1, col := reloc.2
                  pos_memory := Colony.Ant.update_memory a.pos_memory (a.row, a.col)
                                  s.ant_mem },
          s.pheromone)) := by
  constructor
  · intro h
    simp only [Colony.Ant.deposit_pheromone, hsel, if_pos h]
  · intro h
    simp only [Colony.Ant.deposit_pheromone, hsel, if_neg (not_le.mpr h)]

/-- A `2 × 2` colony whose pixel `(0, 1)` has intensity `1/2`; everything
else is flat. -/
def exC6 : ColonyState :=
  { rows := 2, cols := 2, intensities := fun i j => if i = 0 ∧ j = 1 then 1 / 2 else 0
    pheromone := fun _ _ l => if l = 1 then 1 / 10 else 0
    ants := [], alpha := 1, beta := 1, p := 1 / 25, b := 1 / 10, m := 1, ant_mem := 2
    tau_min := 1 / 10, memory_index := 0 }

/-- An ant sitting at `(0, 0)` of `exC6` with empty taboo memory. -/
def exC6ant : AntState := ⟨0, 0, [], false⟩

/-- Witness for C6: on `exC6` the selection picks `(0, 1)` (probability `1`
versus `0`), its intensity `1/2` exceeds `b = 1/10`, so the ant moves there
and the cell's memory layer is overwritten with `1/2`. -/
theorem C6_threshold_branch_witness :
    Colony.Ant.get_max_probability_pos exC6
        { exC6ant with pos_memory := Colony.Ant.update_memory exC6ant.pos_memory
                         (exC6ant.row, exC6ant.col) exC6.ant_mem }
        Colony.directions = some (0, 1) ∧
      exC6.b ≤ exC6.intensities 0 1 ∧
      Colony.Ant.deposit_pheromone exC6 exC6ant Colony.directions (1, 1) =
        ({ exC6ant with row := 0, col := 1
                        pos_memory := Colony.Ant.update_memory exC6ant.pos_memory
                          (exC6ant.row, exC6ant.col) exC6.ant_mem },
          fun i j l =>
            if i = 0 ∧ j = 1 ∧ l = exC6.memory_index then exC6.intensities 0 1
            else exC6.pheromone i j l) := by
  have hsel : Colony.Ant.get_max_probability_pos exC6
      { exC6ant with pos_memory := Colony.Ant.update_memory exC6ant.pos_memory
                       (exC6ant.row, exC6ant.col) exC6.ant_mem }
      Colony.directions = some (0, 1) := by
    norm_num [Colony.Ant.get_max_probability_pos, Colony.Ant.get_index_probabilities,
      candidateScan, Colony.Ant.index_probability, Colony.Ant.update_memory, exC6, exC6ant,
      Colony.directions, pyDict, dictInsert, assocGet, maxScan, Colony.Ant.max,
      List.insertionSort, List.orderedInsert]
  have hb : exC6.b ≤ exC6.intensities 0 1 := by norm_num [exC6]
  exact ⟨hsel, hb,
    (C6_threshold_branch exC6 exC6ant Colony.directions (1, 1) (0, 1) hsel).1 hb⟩

/-- C9: a single ant step mutates only that ant (position and taboo
memory) and at most one pheromone cell, in a memory layer: the grid shape,
the intensity grid, all colony constants, the rotating index, every other
ant, the total pheromone layer, and every other pheromone cell are
unchanged.  (`memory_index < m` holds in every reachable state with
`m ≥ 1`; it makes the touched layer a memory layer, not the total.) -/
theorem C9_frame (s : ColonyState) (i : ℕ) (order : List (ℤ × ℤ)) (reloc : Pos)
    (hm : s.memory_index < s.m) :
    (Colony.antStep s i order reloc).rows = s.rows ∧
      (Colony.antStep s i order reloc).cols = s.cols ∧
      (Colony.antStep s i order reloc).intensities = s.intensities ∧
      (Colony.antStep s i order reloc).alpha = s.alpha ∧
      (Colony.antStep s i order reloc).beta = s.beta ∧
      (Colony.antStep s i order reloc).p = s.p ∧
      (Colony.antStep s i order reloc).b = s.b ∧
      (Colony.antStep s i order reloc).m = s.m ∧
      (Colony.antStep s i order reloc).ant_mem = s.ant_mem ∧
      (Colony.antStep s i order reloc).tau_min = s.tau_min ∧
      (Colony.antStep s i order reloc).memory_index = s.memory_index ∧
      (Colony.antStep s i order reloc).ants.length = s.ants.length ∧
      (∀ j, j ≠ i → (Colony.antStep s i order reloc).ants[j]? = s.ants[j]?) ∧
      (∃ r c, ∀ i' j' l, ¬(i' = r ∧ j' = c ∧ l = s.memory_index) →
        (Colony.antStep s i order reloc).pheromone i' j' l = s.pheromone i' j' l) ∧
      (∀ i' j', (Colony.antStep s i order reloc).pheromone i' j' s.m = s.pheromone i' j' s.m) := by
  have hmm : s.m ≠ s.memory_index := by omega
  cases hA : s.ants[i]? with
  | none =>
    have hstep : Colony.antStep s i order reloc = s := by
      simp [Colony.antStep, hA]
    rw [hstep]
    exact ⟨rfl, rfl, rfl, rfl, rfl, rfl, rfl, rfl, rfl, rfl, rfl, rfl,
      fun _ _ => rfl, ⟨0, 0, fun _ _ _ _ => rfl⟩, fun _ _ => rfl⟩
  | some a =>
    have hstep : Colony.antStep s i order reloc =
        { s with ants := s.ants.set i (Colony.Ant.deposit_pheromone s a order reloc).1
                 pheromone := (Colony.Ant.deposit_pheromone s a order reloc).2 } := by
      simp [Colony.antStep, hA]
    rw [hstep]
    have hph : (∃ r c, ∀ i' j' l, ¬(i' = r ∧ j' = c ∧ l = s.memory_index) →
          (Colony.Ant.deposit_pheromone s a order reloc).2 i' j' l = s.pheromone i' j' l) ∧
        (∀ i' j', (Colony.Ant.deposit_pheromone s a order reloc).2 i' j' s.m =
          s.pheromone i' j' s.m) := by
      cases hsel : Colony.Ant.get_max_probability_pos s
          { a with pos_memory := Colony.Ant.update_memory a.pos_memory (a.row, a.col)
                                   s.ant_mem }
          order with
      | none =>
        simp only [Colony.Ant.deposit_pheromone, hsel]
        refine ⟨⟨0, 0, fun _ _ _ _ => ?_⟩, fun _ _ => ?_⟩ <;> trivial
      | some pos =>
        by_cases hb : s.b ≤ s.intensities pos.1 pos.2
        · simp only [Colony.Ant.deposit_pheromone, hsel, if_pos hb]
          exact ⟨⟨pos.1, pos.2, fun i' j' l hch => if_neg hch⟩,
            fun i' j' => if_neg (fun hch => hmm hch.2.2)⟩
        · simp only [Colony.Ant.deposit_pheromone, hsel, if_neg hb]
          refine ⟨⟨0, 0, fun _ _ _ _ => ?_⟩, fun _ _ => ?_⟩ <;> trivial
    exact ⟨rfl, rfl, rfl, rfl, rfl, rfl, rfl, rfl, rfl, rfl, rfl,
      List.length_set s.ants i _,
      fun j hj => List.getElem?_set_ne (fun h => hj h.symm),
      hph.1, hph.2⟩

/-- The colony `exC6` holding one ant at `(0, 0)`. -/
def exC9 : ColonyState := { exC6 with ants := [exC6ant] }

/-- Witness for C9: step the single ant of `exC9` (whose `memory_index = 0`
is below `m = 1`). -/
theorem C9_frame_witness :
    exC9.memory_index < exC9.m ∧
      ((Colony.antStep exC9 0 Colony.directions (1, 1)).rows = exC9.rows ∧
        (Colony.antStep exC9 0 Colony.directions (1, 1)).cols = exC9.cols ∧
        (Colony.antStep exC9 0 Colony.directions (1, 1)).intensities = exC9.intensities ∧
        (Colony.antStep exC9 0 Colony.directions (1, 1)).alpha = exC9.alpha ∧
        (Colony.antStep exC9 0 Colony.directions (1, 1)).beta = exC9.beta ∧
        (Colony.antStep exC9 0 Colony.directions (1, 1)).p = exC9.p ∧
        (Colony.antStep exC9 0 Colony.directions (1, 1)).b = exC9.b ∧
        (Colony.antStep exC9 0 Colony.directions (1, 1)).m = exC9.m ∧
        (Colony.antStep exC9 0 Colony.directions (1, 1)).ant_mem = exC9.ant_mem ∧
        (Colony.antStep exC9 0 Colony.directions (1, 1)).tau_min = exC9.tau_min ∧
        (Colony.antStep exC9 0 Colony.directions (1, 1)).memory_index = exC9.memory_index ∧
        (Colony.antStep exC9 0 Colony.directions (1, 1)).ants.length = exC9.ants.length ∧
        (∀ j, j ≠ 0 → (Colony.antStep exC9 0 Colony.directions (1, 1)).ants[j]? =
          exC9.ants[j]?) ∧
        (∃ r c, ∀ i' j' l, ¬(i' = r ∧ j' = c ∧ l = exC9.memory_index) →
          (Colony.antStep exC9 0 Colony.directions (1, 1)).pheromone i' j' l =
            exC9.pheromone i' j' l) ∧
        (∀ i' j', (Colony.antStep exC9 0 Colony.directions (1, 1)).pheromone i' j' exC9.m =
          exC9.pheromone i' j' exC9.m)) :=
  ⟨by decide, C9_frame exC9 0 Colony.directions (1, 1) (by decide)⟩

/-- With no ants the per-iteration ant loop is a no-op. -/
theorem stepAnts_no_ants (s : ColonyState) (ch : ℕ → List (ℤ × ℤ) × Pos)
    (h : s.ants = []) : Colony.stepAnts s ch = s := by
  simp [Colony.stepAnts, h]

/-- Invariant driving C8: with no ants, iteration preserves the ant list,
the constants and the all-zero memory layers. -/
theorem C8_invariant (s : ColonyState) (ch : ℕ → ℕ → List (ℤ × ℤ) × Pos)
    (h0 : s.ants = []) (hz : ∀ i j l, l < s.m → s.pheromone i j l = 0) (t : ℕ) :
    (Colony.iterate s ch t).ants = [] ∧ (Colony.iterate s ch t).m = s.m ∧
      (Colony.iterate s ch t).p = s.p ∧ (Colony.iterate s ch t).tau_min = s.tau_min ∧
      (Colony.iterate s ch t).rows = s.rows ∧ (Colony.iterate s ch t).cols = s.cols ∧
      (∀ i j l, l < s.m → (Colony.iterate s ch t).pheromone i j l = 0) := by
  induction t with
  | zero => exact ⟨h0, rfl, rfl, rfl, rfl, rfl, hz⟩
  | succ t ih =>
    obtain ⟨ha, hmeq, hp, htau, hr, hc, hzz⟩ := ih
    have hstep : Colony.stepAnts (Colony.iterate s ch t) (ch t) = Colony.iterate s ch t :=
      stepAnts_no_ants _ _ ha
    have key : Colony.iterate s ch (t + 1) =
        Colony.adjust_pheromone (Colony.iterate s ch t) :=
      congrArg Colony.adjust_pheromone hstep
    rw [key]
    refine ⟨?_, ?_, ?_, ?_, ?_, ?_, ?_⟩
    · exact ha
    · exact hmeq
    · exact hp
    · exact htau
    · exact hr
    · exact hc
    · intro i j l hl
      have hlm : l < (Colony.iterate s ch t).m := by omega
      show (Colony.adjust_pheromone (Colony.iterate s ch t)).pheromone i j l = 0
      simp only [Colony.adjust_pheromone]
      split
      · split
        · split
          · rfl
          · rw [if_neg (show ¬l = (Colony.iterate s ch t).m by omega)]
            exact hzz i j l hl
        · split
          · rfl
          · rw [if_neg (show ¬l = (Colony.iterate s ch t).m by omega)]
            exact hzz i j l hl
      · exact hzz i j l hl

/-- C8: for a colony with no ants (and memory depth `m ≥ 1`, as the
configuration requires) every iteration performs pure evaporation clamped
at the pheromone floor on every in-bounds cell:
`total_(t+1) = max((1-p) * total_t, tau_min)`. -/
theorem C8_pure_evaporation (s : ColonyState) (ch : ℕ → ℕ → List (ℤ × ℤ) × Pos)
    (h0 : s.ants = []) (hm : 1 ≤ s.m)
    (hz : ∀ i j l, l < s.m → s.pheromone i j l = 0)
    (t i j : ℕ) (hi : i < s.rows) (hj : j < s.cols) :
    (Colony.iterate s ch (t + 1)).pheromone i j s.m =
      max ((1 - s.p) * (Colony.iterate s ch t).pheromone i j s.m) s.tau_min := by
  obtain ⟨ha, hmeq, hp, htau, hr, hc, hzz⟩ := C8_invariant s ch h0 hz t
  have hstep : Colony.stepAnts (Colony.iterate s ch t) (ch t) = Colony.iterate s ch t :=
    stepAnts_no_ants _ _ ha
  show (Colony.adjust_pheromone (Colony.stepAnts (Colony.iterate s ch t) (ch t))).pheromone
      i j s.m = _
  rw [hstep]
  have hsum : memSum (Colony.iterate s ch t) i j = 0 := by
    apply List.sum_eq_zero
    intro x hx
    simp only [List.mem_map, List.mem_range] at hx
    obtain ⟨l, hl, hlx⟩ := hx
    rw [← hlx]
    exact hzz i j l (by omega)
  have hidxne : ¬s.m = (if (Colony.iterate s ch t).m - 1 ≤
      (Colony.iterate s ch t).memory_index then 0
    else (Colony.iterate s ch t).memory_index + 1) := by
    split <;> omega
  simp only [Colony.adjust_pheromone]
  rw [if_pos ⟨hr ▸ hi, hc ▸ hj⟩, if_neg hidxne, if_pos hmeq.symm, hsum, add_zero, hp, htau,
    hmeq]

/-- A `1 × 1` colony built by the constructor with zero ants. -/
def exC8 : ColonyState :=
  Colony.init 1 1 (fun _ _ => 0) [] 1 1 (1 / 10) (1 / 20) 1 2 (1 / 10)

/-- Witness for C8 on `exC8` at iteration `1`, cell `(0, 0)`. -/
theorem C8_pure_evaporation_witness :
    exC8.ants = [] ∧ 1 ≤ exC8.m ∧
      (Colony.iterate exC8 (fun _ _ => (Colony.directions, (0, 0))) 1).pheromone 0 0 exC8.m =
        max ((1 - exC8.p) *
            (Colony.iterate exC8 (fun _ _ => (Colony.directions, (0, 0))) 0).pheromone
              0 0 exC8.m)
          exC8.tau_min :=
  ⟨rfl, by decide,
    C8_pure_evaporation exC8 (fun _ _ => (Colony.directions, (0, 0))) rfl (by decide)
      (fun i j l hl => by
        have hm1 : exC8.m = 1 := rfl
        have hl0 : l = 0 := by omega
        subst hl0
        rfl)
      0 0 0 (by decide) (by decide)⟩

/-- The state invariant behind C2: memory depth at least one, a valid
rotating index, and the total layer at or above the floor on every
in-bounds cell. -/
def ColonyInv (s : ColonyState) : Prop :=
  1 ≤ s.m ∧ s.memory_index < s.m ∧
    ∀ i j, i < s.rows → j < s.cols → s.tau_min ≤ s.pheromone i j s.m

/-- An ant step preserves the C2 invariant (it writes only a memory
layer). -/
theorem antStep_inv (s : ColonyState) (i : ℕ) (order : List (ℤ × ℤ)) (reloc : Pos)
    (h : ColonyInv s) : ColonyInv (Colony.antStep s i order reloc) := by
  obtain ⟨hm, hidx, htot⟩ := h
  cases hA : s.ants[i]? with
  | none =>
    have hstep : Colony.antStep s i order reloc = s := by
      simp [Colony.antStep, hA]
    rw [hstep]
    exact ⟨hm, hidx, htot⟩
  | some a =>
    have hstep : Colony.antStep s i order reloc =
        { s with ants := s.ants.set i (Colony.Ant.deposit_pheromone s a order reloc).1
                 pheromone := (Colony.Ant.deposit_pheromone s a order reloc).2 } := by
      simp [Colony.antStep, hA]
    rw [hstep]
    refine ⟨hm, hidx, ?_⟩
    intro i' j' hi hj
    have hph : (Colony.Ant.deposit_pheromone s a order reloc).2 i' j' s.m =
        s.pheromone i' j' s.m := by
      cases hsel : Colony.Ant.get_max_probability_pos s
          { a with pos_memory := Colony.Ant.update_memory a.pos_memory (a.row, a.col)
                                   s.ant_mem }
          order with
      | none => simp only [Colony.Ant.deposit_pheromone, hsel]
      | some pos =>
        by_cases hb : s.b ≤ s.intensities pos.1 pos.2
        · simp only [Colony.Ant.deposit_pheromone, hsel, if_pos hb]
          exact if_neg (fun hch => by omega)
        · simp only [Colony.Ant.deposit_pheromone, hsel, if_neg hb]
    show s.tau_min ≤ (Colony.Ant.deposit_pheromone s a order reloc).2 i' j' s.m
    rw [hph]
    exact htot i' j' hi hj

/-- Consolidation preserves the C2 invariant: the new total is a `max`
with `tau_min`, and the advanced index stays in range. -/
theorem adjust_inv (s : ColonyState) (h : ColonyInv s) :
    ColonyInv (Colony.adjust_pheromone s) := by
  obtain ⟨hm, hidx, htot⟩ := h
  refine ⟨hm, ?_, ?_⟩
  · show (if s.m - 1 ≤ s.memory_index then 0 else s.memory_index + 1) < s.m
    split <;> omega
  · intro i j hi hj
    show s.tau_min ≤ (Colony.adjust_pheromone s).pheromone i j s.m
    simp only [Colony.adjust_pheromone]
    rw [if_pos ⟨hi, hj⟩]
    rw [if_neg (show ¬s.m = (if s.m - 1 ≤ s.memory_index then 0
      else s.memory_index + 1) by split <;> omega)]
    simp only [if_true]
    exact le_max_right _ _

/-- The C2 invariant propagates along every reachable state. -/
theorem reach_inv {s t : ColonyState} (h : Reach s t) (hs : ColonyInv s) : ColonyInv t := by
  induction h with
  | refl => exact hs
  | ant i order reloc h ih => exact antStep_inv _ i order reloc ih
  | adjust h ih => exact adjust_inv _ ih

/-- A freshly constructed colony satisfies the C2 invariant whenever
`m ≥ 1`. -/
theorem init_inv (rows cols : ℕ) (intens : ℕ → ℕ → ℚ) (ants : List AntState)
    (alpha beta : ℕ) (p b : ℚ) (m ant_mem : ℕ) (tau_min : ℚ) (hm : 1 ≤ m) :
    ColonyInv (Colony.init rows cols intens ants alpha beta p b m ant_mem tau_min) := by
  refine ⟨hm, hm, ?_⟩
  intro i j hi hj
  have hi2 : i < rows := hi
  have hj2 : j < cols := hj
  show tau_min ≤ Colony.initPheromone rows cols m tau_min i j m
  simp [Colony.initPheromone, hi2, hj2]

/-- C2: in every colony state reachable from construction (with memory
depth `m ≥ 1`, as the configuration requires) by any sequence of ant steps
and consolidations, every in-bounds cell of the total pheromone layer is at
least `tau_min`. -/
theorem C2_total_floor (rows cols : ℕ) (intens : ℕ → ℕ → ℚ) (ants : List AntState)
    (alpha beta : ℕ) (p b : ℚ) (m ant_mem : ℕ) (tau_min : ℚ) (hm : 1 ≤ m)
    (t : ColonyState)
    (hr : Reach (Colony.init rows cols intens ants alpha beta p b m ant_mem tau_min) t)
    (i j : ℕ) (hi : i < t.rows) (hj : j < t.cols) :
    t.tau_min ≤ t.pheromone i j t.m :=
  (reach_inv hr
    (init_inv rows cols intens ants alpha beta p b m ant_mem tau_min hm)).2.2 i j hi hj

/-- Witness for C2 at the freshly built `exC8` itself. -/
theorem C2_total_floor_witness :
    1 ≤ exC8.m ∧ exC8.tau_min ≤ exC8.pheromone 0 0 exC8.m :=
  ⟨by decide,
    C2_total_floor 1 1 (fun _ _ => 0) [] 1 1 (1 / 10) (1 / 20) 1 2 (1 / 10) (by decide)
      exC8 (Reach.refl _) 0 0 (by decide) (by decide)⟩

/-- The weight list produced by candidate enumeration is the pointwise
weight of the position list. -/
theorem candidateScan_fst (s : ColonyState) (row col : ℕ) (ds : List (ℤ × ℤ)) :
    (candidateScan s row col ds).1 =
      (candidateScan s row col ds).2.map (Colony.Ant.index_probability s) := by
  induction ds with
  | nil => rfl
  | cons d ds ih =>
    simp only [candidateScan]
    split
    · exact ih
    · simp [ih]

/-- Every enumerated candidate position is in bounds. -/
theorem candidateScan_bounds (s : ColonyState) (row col : ℕ) (ds : List (ℤ × ℤ)) :
    ∀ q ∈ (candidateScan s row col ds).2, q.1 < s.rows ∧ q.2 < s.cols := by
  induction ds with
  | nil => intro q hq; cases hq
  | cons d ds ih =>
    intro q hq
    simp only [candidateScan] at hq
    split at hq
    · exact ih q hq
    · rename_i hcond
      push_neg at hcond
      rcases List.mem_cons.mp hq with h | h
      · subst h
        exact ⟨by omega, by omega⟩
      · exact ih q h

/-- A list of non-negative rationals summing to zero is pointwise zero. -/
theorem list_sum_zero_of_nonneg {l : List ℚ} (hpos : ∀ x ∈ l, 0 ≤ x)
    (h : l.sum = 0) : ∀ x ∈ l, x = 0 := by
  induction l with
  | nil => intro x hx; cases hx
  | cons a l ih =>
    have ha : 0 ≤ a := hpos a (List.mem_cons_self a l)
    have hl : 0 ≤ l.sum := List.sum_nonneg fun x hx => hpos x (List.mem_cons_of_mem a hx)
    rw [List.sum_cons] at h
    have ha0 : a = 0 := by linarith
    have hl0 : l.sum = 0 := by linarith
    intro x hx
    rcases List.mem_cons.mp hx with h' | h'
    · exact h' ▸ ha0
    · exact ih (fun y hy => hpos y (List.mem_cons_of_mem a hy)) hl0 x h'

/-- C3 (amended): when the weight sum of the in-bounds neighbor candidates
is zero, an ant step does not crash (in Python the `0.0 / 0.0` divisions
produce `nan`, no exception), and provided the intensity threshold `b` is
positive the observable outcome is exactly the claimed one: the ant ends at
the supplied uniformly random relocation target and the pheromone grid is
untouched.  Internally the `nan`-keyed scan may still return a candidate —
it is rejected by the threshold because all candidate intensities are `0`.
(Hypotheses: the total layer sits at or above a positive `tau_min` — the C2
invariant under the configuration contract `tau_min > 0` — and intensities
are non-negative, as computed ones always are.  With `b = 0` the claim
fails, see the counterexample.) -/
theorem C3_zero_denominator (s : ColonyState) (a : AntState) (order : List (ℤ × ℤ))
    (reloc : Pos)
    (htau : 0 < s.tau_min)
    (htot : ∀ i j, i < s.rows → j < s.cols → s.tau_min ≤ s.pheromone i j s.m)
    (hint : ∀ i j, i < s.rows → j < s.cols → 0 ≤ s.intensities i j)
    (hb : 0 < s.b)
    (hden : (Colony.Ant.get_index_probabilities s a order).1.sum = 0) :
    (Colony.Ant.deposit_pheromone s a order reloc).1.row = reloc.1 ∧
      (Colony.Ant.deposit_pheromone s a order reloc).1.col = reloc.2 ∧
      (Colony.Ant.deposit_pheromone s a order reloc).2 = s.pheromone := by
  have hden2 : (candidateScan s a.row a.col order).1.sum = 0 := hden
  have hnn : ∀ x ∈ (candidateScan s a.row a.col order).1, 0 ≤ x := by
    rw [candidateScan_fst]
    intro x hx
    obtain ⟨q, hq, rfl⟩ := List.mem_map.mp hx
    obtain ⟨h1, h2⟩ := candidateScan_bounds s a.row a.col order q hq
    exact mul_nonneg (pow_nonneg (le_trans (le_of_lt htau) (htot _ _ h1 h2)) _)
      (pow_nonneg (hint _ _ h1 h2) _)
  have hall : ∀ q ∈ (candidateScan s a.row a.col order).2,
      Colony.Ant.index_probability s q = 0 := by
    intro q hq
    have := list_sum_zero_of_nonneg hnn hden2
    rw [candidateScan_fst] at this
    exact this _ (List.mem_map_of_mem (Colony.Ant.index_probability s) hq)
  have hint0 : ∀ q ∈ (candidateScan s a.row a.col order).2,
      s.intensities q.1 q.2 = 0 := by
    intro q hq
    have hw := hall q hq
    obtain ⟨h1, h2⟩ := candidateScan_bounds s a.row a.col order q hq
    have htq : 0 < s.pheromone q.1 q.2 s.m := lt_of_lt_of_le htau (htot _ _ h1 h2)
    have hpa : s.pheromone q.1 q.2 s.m ^ s.alpha ≠ 0 := ne_of_gt (pow_pos htq _)
    rw [Colony.Ant.index_probability] at hw
    have hib : s.intensities q.1 q.2 ^ s.beta = 0 := by
      rcases mul_eq_zero.mp hw with h | h
      · exact absurd h hpa
      · exact h
    cases hbeta : s.beta with
    | zero => rw [hbeta, pow_zero] at hib; exact absurd hib one_ne_zero
    | succ n =>
      rw [hbeta] at hib
      exact (pow_eq_zero_iff (Nat.succ_ne_zero n)).mp hib
  have hgm : Colony.Ant.get_max_probability_pos s
      { a with pos_memory := Colony.Ant.update_memory a.pos_memory (a.row, a.col)
                               s.ant_mem }
      order = (candidateScan s a.row a.col order).2.find?
        (fun q => decide (q ∉ Colony.Ant.update_memory a.pos_memory (a.row, a.col)
          s.ant_mem)) := by
    simp only [Colony.Ant.get_max_probability_pos, Colony.Ant.get_index_probabilities]
    rw [if_pos hden2]
  cases hfind : (candidateScan s a.row a.col order).2.find?
      (fun q => decide (q ∉ Colony.Ant.update_memory a.pos_memory (a.row, a.col)
        s.ant_mem)) with
  | none =>
    rw [hfind] at hgm
    simp only [Colony.Ant.deposit_pheromone, hgm]
    refine ⟨?_, ?_, ?_⟩ <;> trivial
  | some q =>
    rw [hfind] at hgm
    have hqmem : q ∈ (candidateScan s a.row a.col order).2 :=
      List.mem_of_find?_eq_some hfind
    have hq0 : s.intensities q.1 q.2 = 0 := hint0 q hqmem
    have hnb : ¬s.b ≤ s.intensities q.1 q.2 := by
      rw [hq0]; exact not_le.mpr hb
    simp only [Colony.Ant.deposit_pheromone, hgm, if_neg hnb]
    refine ⟨?_, ?_, ?_⟩ <;> trivial

/-- A flat `2 × 2` colony with `b = 0` whose memory layer holds `1/2` at
cell `(0, 1)`. -/
def exC3 : ColonyState :=
  { rows := 2, cols := 2, intensities := fun _ _ => 0
    pheromone := fun i j l => if l = 1 then 1 / 10 else if i = 0 ∧ j = 1 then 1 / 2 else 0
    ants := [], alpha := 1, beta := 1, p := 1 / 25, b := 0, m := 1, ant_mem := 2
    tau_min := 1 / 10, memory_index := 0 }

/-- An ant at `(0, 0)` of `exC3` with empty taboo memory. -/
def exC3ant : AntState := ⟨0, 0, [], false⟩

/-- C3 counterexample: on `exC3` (threshold `b = 0`, an allowed
configuration) the candidate weight sum is zero, yet the ant does **not**
relocate to the supplied random target `(1, 1)` — it moves to the neighbor
`(0, 1)` — and it **does** deposit: the memory-layer cell `(0, 1, 0)`
holding `1/2` is overwritten with `0`. -/
theorem C3_zero_denominator_cex :
    (Colony.Ant.get_index_probabilities exC3 exC3ant Colony.directions).1.sum = 0 ∧
      (Colony.Ant.deposit_pheromone exC3 exC3ant Colony.directions (1, 1)).1.row = 0 ∧
      (Colony.Ant.deposit_pheromone exC3 exC3ant Colony.directions (1, 1)).1.col = 1 ∧
      exC3.pheromone 0 1 0 = 1 / 2 ∧
      (Colony.Ant.deposit_pheromone exC3 exC3ant Colony.directions (1, 1)).2 0 1 0 = 0 := by
  refine ⟨?_, ?_⟩
  · norm_num [Colony.Ant.get_index_probabilities, candidateScan,
      Colony.Ant.index_probability, exC3, exC3ant, Colony.directions]
  · norm_num [Colony.Ant.deposit_pheromone, Colony.Ant.get_max_probability_pos,
      Colony.Ant.get_index_probabilities, candidateScan, Colony.Ant.index_probability,
      Colony.Ant.update_memory, exC3, exC3ant, Colony.directions, List.find?]

/-- A flat `2 × 2` colony with positive threshold `b = 1/20`. -/
def exC3w : ColonyState :=
  { rows := 2, cols := 2, intensities := fun _ _ => 0
    pheromone := fun _ _ l => if l = 1 then 1 / 10 else 0
    ants := [], alpha := 1, beta := 1, p := 1 / 25, b := 1 / 20, m := 1, ant_mem := 2
    tau_min := 1 / 10, memory_index := 0 }

/-- An ant at `(0, 0)` of `exC3w` with empty taboo memory. -/
def exC3want : AntState := ⟨0, 0, [], false⟩

/-- Witness for C3 on `exC3w`: the weight sum is zero and the ant ends at
the relocation target `(1, 1)` with the pheromone grid untouched. -/
theorem C3_zero_denominator_witness :
    (Colony.Ant.get_index_probabilities exC3w exC3want Colony.directions).1.sum = 0 ∧
      0 < exC3w.b ∧
      (Colony.Ant.deposit_pheromone exC3w exC3want Colony.directions (1, 1)).1.row = 1 ∧
      (Colony.Ant.deposit_pheromone exC3w exC3want Colony.directions (1, 1)).1.col = 1 ∧
      (Colony.Ant.deposit_pheromone exC3w exC3want Colony.directions (1, 1)).2 =
        exC3w.pheromone := by
  have hden : (Colony.Ant.get_index_probabilities exC3w exC3want Colony.directions).1.sum
      = 0 := by
    norm_num [Colony.Ant.get_index_probabilities, candidateScan,
      Colony.Ant.index_probability, exC3w, exC3want, Colony.directions]
  have T := C3_zero_denominator exC3w exC3want Colony.directions (1, 1)
    (by norm_num [exC3w])
    (by intro i j hi hj; norm_num [exC3w])
    (by intro i j hi hj; norm_num [exC3w])
    (by norm_num [exC3w])
    hden
  exact ⟨hden, by norm_num [exC3w], T.1, T.2.1, T.2.2⟩

/-- Recording a coordinate different from `c` cannot introduce `c` into
the taboo memory. -/
theorem update_memory_not_mem {c : Pos} {mem : List Pos} (v : Pos) (cap : ℕ)
    (hc : c ∉ mem) (hne : c ≠ v) : c ∉ Colony.Ant.update_memory mem v cap := by
  simp only [Colony.Ant.update_memory]
  split
  · split
    · exact fun h => hc (List.drop_subset 1 mem h)
    · exact hc
  · have hm1 : c ∉ mem ++ [v] := by
      intro h
      rcases List.mem_append.mp h with h | h
      · exact hc h
      · exact hne (List.mem_singleton.mp h)
    split
    · exact fun h => hm1 (List.drop_subset 1 _ h)
    · exact hm1

/-- Once evicted (and never re-visited), a coordinate stays out of the
taboo memory. -/
theorem foldl_update_not_mem (cap : ℕ) (vs : List Pos) (mem : List Pos) (c : Pos)
    (hc : c ∉ mem) (hvs : c ∉ vs) :
    c ∉ vs.foldl (fun mm v => Colony.Ant.update_memory mm v cap) mem := by
  induction vs generalizing mem with
  | nil => exact hc
  | cons v vs ih =>
    have hne : c ≠ v := fun h => hvs (h ▸ List.mem_cons_self v vs)
    have hvs2 : c ∉ vs := fun h => hvs (List.mem_cons_of_mem v h)
    exact ih (Colony.Ant.update_memory mem v cap) (update_memory_not_mem v cap hc hne) hvs2

/-- Counting invariant behind the eviction half of C7: while the earliest
coordinate `c` is still in memory it sits at the head, and the remaining
distinct visits outnumber the free slots plus the visits that will be
absorbed by already-present coordinates, so the next overflow evicts `c`
before the visits run out. -/
theorem evict_aux (cap : ℕ) (c : Pos) (vs : List Pos) :
    ∀ mem : List Pos,
      mem.Nodup → vs.Nodup → c ∉ vs →
      (c ∈ mem → mem.head? = some c) →
      mem.length ≤ cap →
      (c ∈ mem →
        (cap - mem.length) + 1 + (vs.filter (fun v => decide (v ∈ mem))).length ≤
          vs.length) →
      c ∉ vs.foldl (fun mm v => Colony.Ant.update_memory mm v cap) mem := by
  induction vs with
  | nil =>
    intro mem _ _ _ _ _ hineq hc
    have := hineq hc
    simp only [List.filter_nil, List.length_nil] at this
    omega
  | cons v vs ih =>
    intro mem hnd hvnd hcv hhead hlen hineq
    by_cases hc : c ∈ mem
    · have hhd := hhead hc
      obtain ⟨tail, rfl⟩ : ∃ tail, mem = c :: tail := by
        cases mem with
        | nil => cases hc
        | cons x t =>
          refine ⟨t, ?_⟩
          have hx : x = c := by
            simpa using hhd
          rw [hx]
      have hcvne : c ≠ v := fun h => hcv (h ▸ List.mem_cons_self v vs)
      have hcvs : c ∉ vs := fun h => hcv (List.mem_cons_of_mem v h)
      have hctail : c ∉ tail := (List.nodup_cons.mp hnd).1
      show c ∉ vs.foldl (fun mm v => Colony.Ant.update_memory mm v cap)
        (Colony.Ant.update_memory (c :: tail) v cap)
      by_cases hv : v ∈ c :: tail
      · have hupd : Colony.Ant.update_memory (c :: tail) v cap = c :: tail := by
          simp only [Colony.Ant.update_memory, if_pos hv]
          rw [if_neg (by omega)]
        rw [hupd]
        apply ih (c :: tail) hnd (List.nodup_cons.mp hvnd).2 hcvs hhead hlen
        intro _
        have h0 := hineq hc
        rw [List.filter_cons_of_pos (by simpa using hv)] at h0
        simp only [List.length_cons] at h0 ⊢
        omega
      · by_cases hover : cap < (c :: tail).length + 1
        · have hupd : Colony.Ant.update_memory (c :: tail) v cap = tail ++ [v] := by
            simp only [Colony.Ant.update_memory, if_neg hv]
            rw [if_pos (by
              simp only [List.length_append, List.length_cons, List.length_nil] at hover ⊢
              omega)]
            simp
          rw [hupd]
          apply foldl_update_not_mem cap vs (tail ++ [v]) c ?_ hcvs
          intro h
          rcases List.mem_append.mp h with h | h
          · exact hctail h
          · exact hcvne (List.mem_singleton.mp h)
        · have hupd : Colony.Ant.update_memory (c :: tail) v cap = (c :: tail) ++ [v] := by
            simp only [Colony.Ant.update_memory, if_neg hv]
            rw [if_neg (by
              simp only [List.length_append, List.length_cons, List.length_nil] at hover ⊢
              omega)]
          rw [hupd]
          apply ih ((c :: tail) ++ [v]) ?_ (List.nodup_cons.mp hvnd).2 hcvs ?_ ?_ ?_
          · exact List.Nodup.append hnd (List.nodup_singleton v)
              (by
                intro x hx hxv
                rw [List.mem_singleton.mp hxv] at hx
                exact hv hx)
          · intro _
            rfl
          · simp only [List.length_append, List.length_cons, List.length_nil] at hover ⊢
            omega
          · intro _
            have h0 := hineq hc
            rw [List.filter_cons_of_neg (by simpa using hv)] at h0
            have hfe : vs.filter (fun x => decide (x ∈ (c :: tail) ++ [v])) =
                vs.filter (fun x => decide (x ∈ c :: tail)) := by
              apply List.filter_congr
              intro x hx
              have hxv : x ≠ v := fun h =>
                (List.nodup_cons.mp hvnd).1 (h ▸ hx)
              simp [List.mem_append, hxv]
            rw [hfe]
            simp only [List.length_append, List.length_cons, List.length_nil] at *
            omega
    · exact foldl_update_not_mem cap (v :: vs) mem c hc hcv

/-- C7 (amended): the taboo memory never exceeds its capacity `ant_mem`
(one step preserves `length ≤ cap`), and after `cap + 1` recorded visits to
**pairwise distinct** coordinates all different from the earliest-recorded
coordinate `c`, `c` is no longer in the memory.  (With repeated visits the
original claim fails: a visit to a coordinate already in memory does not
grow the `OrderedDict` and evicts nothing — see the counterexample.) -/
theorem C7_taboo_memory (cap : ℕ) (mem₀ vs : List Pos) (c pos : Pos)
    (hlen : mem₀.length ≤ cap) (hnd : mem₀.Nodup) (hhead : mem₀.head? = some c)
    (hvslen : vs.length = cap + 1) (hvnd : vs.Nodup) (hcv : c ∉ vs) :
    (Colony.Ant.update_memory mem₀ pos cap).length ≤ cap ∧
      c ∉ vs.foldl (fun mm v => Colony.Ant.update_memory mm v cap) mem₀ := by
  constructor
  · simp only [Colony.Ant.update_memory]
    split
    · rename_i h1
      split
      · simp only [List.length_drop]
        omega
      · exact hlen
    · rename_i h1
      split
      · simp only [List.length_drop, List.length_append, List.length_cons, List.length_nil]
        omega
      · rename_i h2
        simp only [List.length_append, List.length_cons, List.length_nil] at h2 ⊢
        omega
  · have hcmem : c ∈ mem₀ := by
      cases mem₀ with
      | nil => cases hhead
      | cons x t =>
        have hx : x = c := by simpa using hhead
        exact hx ▸ List.mem_cons_self x t
    apply evict_aux cap c vs mem₀ hnd hvnd hcv (fun _ => hhead) hlen
    intro _
    have hfsub : ((vs.filter (fun v => decide (v ∈ mem₀))).toFinset : Finset Pos) ⊆
        mem₀.toFinset.erase c := by
      intro x hx
      rw [List.mem_toFinset, List.mem_filter] at hx
      obtain ⟨hxvs, hxmem⟩ := hx
      rw [Finset.mem_erase]
      exact ⟨fun h => hcv (h ▸ hxvs), List.mem_toFinset.mpr (of_decide_eq_true hxmem)⟩
    have hfnd : (vs.filter (fun v => decide (v ∈ mem₀))).Nodup := List.Nodup.filter _ hvnd
    have hcard1 : (vs.filter (fun v => decide (v ∈ mem₀))).length =
        (vs.filter (fun v => decide (v ∈ mem₀))).toFinset.card :=
      (List.toFinset_card_of_nodup hfnd).symm
    have hcard2 : mem₀.toFinset.card = mem₀.length := List.toFinset_card_of_nodup hnd
    have hcard3 : (mem₀.toFinset.erase c).card = mem₀.toFinset.card - 1 :=
      Finset.card_erase_of_mem (List.mem_toFinset.mpr hcmem)
    have hle := Finset.card_le_card hfsub
    have hmempos : 1 ≤ mem₀.length := by
      cases mem₀ with
      | nil => cases hcmem
      | cons x t => simp
    omega

/-- The flat colony `exC3w` holding one ant at `(0, 0)`. -/
def exC7 : ColonyState := { exC3w with ants := [exC3want] }

/-- C7 counterexample: four steps of the single ant of `exC7`
(`ant_mem = 2`).  Step 1 records the start `(0, 0)` and relocates the ant
to `(0, 1)`; steps 2-4 each record `(0, 1)` — that is `ant_mem + 1 = 3`
recorded visits to a coordinate other than `(0, 0)` — yet the earliest
visited coordinate `(0, 0)` is still in the taboo memory, because repeated
visits to a present key neither grow the `OrderedDict` nor evict. -/
theorem C7_taboo_memory_cex :
    exC7.ant_mem = 2 ∧
      (Colony.antStep exC7 0 Colony.directions (0, 1)).ants =
        [⟨0, 1, [(0, 0)], false⟩] ∧
      (Colony.antStep (Colony.antStep (Colony.antStep (Colony.antStep exC7 0
          Colony.directions (0, 1)) 0 Colony.directions (0, 1)) 0 Colony.directions (0, 1))
          0 Colony.directions (0, 1)).ants
        = [⟨0, 1, [(0, 0), (0, 1)], false⟩] := by
  refine ⟨rfl, ?_, ?_⟩ <;>
    simp +decide [Colony.antStep, Colony.Ant.deposit_pheromone,
      Colony.Ant.get_max_probability_pos, Colony.Ant.get_index_probabilities, candidateScan,
      Colony.Ant.index_probability, Colony.Ant.update_memory, exC7, exC3w, exC3want,
      Colony.directions, List.find?]

/-- Witness for C7 with capacity `1`: memory `[(0,0)]`, two distinct
visits `(0,1)`, `(1,0)` evict `(0,0)`. -/
theorem C7_taboo_memory_witness :
    ([((0 : ℕ), (0 : ℕ))] : List Pos).length ≤ 1 ∧
      (Colony.Ant.update_memory [(0, 0)] (5, 5) 1).length ≤ 1 ∧
      ((0, 0) : Pos) ∉ ([(0, 1), (1, 0)] : List Pos).foldl
        (fun mm v => Colony.Ant.update_memory mm v 1) [(0, 0)] := by
  have T := C7_taboo_memory 1 [(0, 0)] [(0, 1), (1, 0)] (0, 0) (5, 5)
    (by decide) (by decide) (by decide) (by decide) (by decide) (by decide)
  exact ⟨by decide, T.1, T.2⟩

/-- The value the `zip` pairs **last** with probability `k` (spec-side
helper for C4): the candidate produced last among those sharing that
probability. -/
def lastAt (ps : List (ℚ × Pos)) (k : ℚ) : Option Pos :=
  ((ps.filter (fun e => decide (e.1 = k))).getLast?).map Prod.snd

/-- Scan a probability list, returning for the first probability whose
last-produced candidate is not taboo that candidate (spec-side helper for
C4). -/
def repScan (mem : List Pos) (ps : List (ℚ × Pos)) : List ℚ → Option Pos
  | [] => none
  | k :: ks =>
    match lastAt ps k with
    | some q => if q ∈ mem then repScan mem ps ks else some q
    | none => repScan mem ps ks

/-- The selection the code actually performs, in the amended claim's words:
scan the **distinct** probability values in descending order; for each, the
only candidate considered is the **last-produced** one carrying that
probability; return the first such representative not in the taboo memory
(`none` when every representative is taboo). -/
def specSelectC4 (mem : List Pos) (ps : List (ℚ × Pos)) : Option Pos :=
  repScan mem ps (List.insertionSort (· ≥ ·) (ps.map Prod.fst).dedup)

/-- Looking a key up after a dict assignment. -/
theorem assocGet_dictInsert (d : List (ℚ × Pos)) (kv : ℚ × Pos) (k : ℚ) :
    assocGet (dictInsert d kv) k = if k = kv.1 then some kv.2 else assocGet d k := by
  induction d with
  | nil =>
    simp only [dictInsert, assocGet]
    by_cases h : kv.1 = k
    · rw [if_pos h, if_pos h.symm]
    · rw [if_neg h, if_neg fun hh => h hh.symm]
  | cons e d ih =>
    by_cases he : e.1 = kv.1
    · simp only [dictInsert, if_pos he, assocGet]
      by_cases hk : k = kv.1
      · rw [if_pos hk.symm, if_pos hk]
      · rw [if_neg fun h => hk h.symm, if_neg hk,
          if_neg (show ¬e.1 = k from fun h => hk (h ▸ he))]
    · simp only [dictInsert, if_neg he, assocGet]
      by_cases hek : e.1 = k
      · have hk : ¬k = kv.1 := fun h => he (hek.trans h)
        rw [if_pos hek, if_neg hk, if_pos hek]
      · simp only [if_neg hek]
        exact ih

/-- Appending one zipped pair shifts `lastAt` exactly like a dict
assignment. -/
theorem lastAt_concat (ps : List (ℚ × Pos)) (kv : ℚ × Pos) (k : ℚ) :
    lastAt (ps ++ [kv]) k = if k = kv.1 then some kv.2 else lastAt ps k := by
  by_cases h : kv.1 = k
  · have hf : List.filter (fun e => decide (e.1 = k)) [kv] = [kv] := by simp [h]
    rw [lastAt, List.filter_append, hf, if_pos h.symm]
    simp
  · have hf : List.filter (fun e => decide (e.1 = k)) [kv] = [] := by simp [h]
    rw [lastAt, List.filter_append, hf, List.append_nil, if_neg fun hh => h hh.symm]
    rfl

/-- Building the dict is a fold, so it grows from the right by
`dictInsert`. -/
theorem pyDict_concat (ps : List (ℚ × Pos)) (kv : ℚ × Pos) :
    pyDict (ps ++ [kv]) = dictInsert (pyDict ps) kv := by
  simp [pyDict, List.foldl_append]

/-- Reading the finished dict at any key yields the **last** value zipped
with that key. -/
theorem assocGet_pyDict (ps : List (ℚ × Pos)) : ∀ k,
    assocGet (pyDict ps) k = lastAt ps k := by
  induction ps using List.reverseRecOn with
  | nil => intro k; rfl
  | append_singleton ps kv ih =>
    intro k
    rw [pyDict_concat, assocGet_dictInsert, lastAt_concat, ih]

/-- A dict assignment leaves the key list unchanged when the key is
present, else appends the key. -/
theorem keys_dictInsert (d : List (ℚ × Pos)) (kv : ℚ × Pos) :
    (dictInsert d kv).map Prod.fst =
      if kv.1 ∈ d.map Prod.fst then d.map Prod.fst else d.map Prod.fst ++ [kv.1] := by
  induction d with
  | nil => simp [dictInsert]
  | cons e d ih =>
    by_cases he : e.1 = kv.1
    · simp only [dictInsert, if_pos he, List.map_cons]
      rw [if_pos (by simp [he.symm])]
      simp [he]
    · simp only [dictInsert, if_neg he, List.map_cons, ih]
      by_cases hmem : kv.1 ∈ d.map Prod.fst
      · rw [if_pos hmem, if_pos (List.mem_cons_of_mem _ hmem)]
      · rw [if_neg hmem,
          if_neg (by
            intro h
            rcases List.mem_cons.mp h with h | h
            · exact he h.symm
            · exact hmem h)]
        simp

/-- The keys of the dict are pairwise distinct. -/
theorem pyDict_keys_nodup (ps : List (ℚ × Pos)) : ((pyDict ps).map Prod.fst).Nodup := by
  induction ps using List.reverseRecOn with
  | nil => simp [pyDict]
  | append_singleton ps kv ih =>
    rw [pyDict_concat, keys_dictInsert]
    split
    · exact ih
    · rename_i hmem
      simp [List.nodup_append, ih, hmem]

/-- The dict's key set is the set of zipped probabilities. -/
theorem pyDict_keys_mem (ps : List (ℚ × Pos)) : ∀ k,
    k ∈ (pyDict ps).map Prod.fst ↔ k ∈ ps.map Prod.fst := by
  induction ps using List.reverseRecOn with
  | nil => intro k; rfl
  | append_singleton ps kv ih =>
    intro k
    rw [pyDict_concat, keys_dictInsert, List.map_append]
    split
    · rename_i hmem
      rw [ih k, List.mem_append]
      constructor
      · exact Or.inl
      · rintro (h | h)
        · exact h
        · rw [List.mem_singleton.mp h]
          exact (ih kv.1).mp hmem
    · simp [ih k]

/-- Scanning the dict along a key list agrees with scanning the zipped
pairs through `lastAt`. -/
theorem maxScan_eq_repScan (mem : List Pos) (ps : List (ℚ × Pos))
    (d : List (ℚ × Pos)) (hget : ∀ k, assocGet d k = lastAt ps k) :
    ∀ ks, maxScan mem d ks = repScan mem ps ks := by
  intro ks
  induction ks with
  | nil => rfl
  | cons k ks ih =>
    cases hcase : lastAt ps k with
    | none =>
      simp only [maxScan, repScan, hget k, hcase]
      exact ih
    | some q =>
      simp only [maxScan, repScan, hget k, hcase]
      split
      · exact ih
      · rfl

/-- The dict-build / key-sort / scan pipeline of `Ant.max` equals the
declarative last-representative selection. -/
theorem antMax_pyDict_eq_specSelect (mem : List Pos) (ps : List (ℚ × Pos)) :
    Colony.Ant.max mem (pyDict ps) = specSelectC4 mem ps := by
  have hperm : ((pyDict ps).map Prod.fst).Perm (ps.map Prod.fst).dedup :=
    (List.perm_ext_iff_of_nodup (pyDict_keys_nodup ps) (List.nodup_dedup _)).mpr
      (fun a => by rw [pyDict_keys_mem ps a, List.mem_dedup])
  have hsort : List.insertionSort (· ≥ ·) ((pyDict ps).map Prod.fst) =
      List.insertionSort (· ≥ ·) (ps.map Prod.fst).dedup := by
    have h1 : List.Sorted (· ≥ ·)
        (List.insertionSort (· ≥ ·) ((pyDict ps).map Prod.fst)) :=
      List.sorted_insertionSort _ _
    have h2 : List.Sorted (· ≥ ·)
        (List.insertionSort (· ≥ ·) (ps.map Prod.fst).dedup) :=
      List.sorted_insertionSort _ _
    exact List.eq_of_perm_of_sorted
      (((List.perm_insertionSort _ _).trans hperm).trans
        (List.perm_insertionSort _ _).symm) h1 h2
  rw [Colony.Ant.max, specSelectC4, hsort]
  exact maxScan_eq_repScan mem ps (pyDict ps) (assocGet_pyDict ps) _

/-- C4 (amended): in every ant step with nonzero weight denominator,
building `dict(zip(probabilities, positions))` keeps, for each **distinct**
probability value, only the **last-produced** candidate carrying it; the
routine scans these distinct probabilities in descending order and returns
the first representative not in TabooMemory.  Hence equal-probability ties
resolve to the last-produced candidate, and an earlier equal-probability
candidate is never considered — even when it is the only non-taboo one (see
the counterexample). -/
theorem C4_selection (s : ColonyState) (a : AntState) (order : List (ℤ × ℤ))
    (hden : (Colony.Ant.get_index_probabilities s a order).1.sum ≠ 0) :
    Colony.Ant.get_max_probability_pos s a order =
      specSelectC4 a.pos_memory
        (((Colony.Ant.get_index_probabilities s a order).1.map
            (fun x => x / (Colony.Ant.get_index_probabilities s a order).1.sum)).zip
          (Colony.Ant.get_index_probabilities s a order).2) := by
  simp only [Colony.Ant.get_max_probability_pos]
  rw [if_neg hden]
  exact antMax_pyDict_eq_specSelect a.pos_memory _

/-- A `1 × 3` colony, flat intensity `1/2`, total layer at `tau_min`
everywhere. -/
def exC4 : ColonyState :=
  { rows := 1, cols := 3, intensities := fun _ _ => 1 / 2
    pheromone := fun _ _ l => if l = 1 then 1 / 10 else 0
    ants := [], alpha := 1, beta := 1, p := 1 / 25, b := 1 / 20, m := 1, ant_mem := 4
    tau_min := 1 / 10, memory_index := 0 }

/-- An ant at `(0, 1)` of `exC4` whose taboo memory holds `(0, 1)` and
`(0, 2)`. -/
def exC4ant : AntState := ⟨0, 1, [(0, 1), (0, 2)], false⟩

/-- A legal shuffle of the eight directions that enumerates `W` before
`E`. -/
def exC4order : List (ℤ × ℤ) :=
  [(0, -1), (0, 1), (-1, 0), (-1, 1), (1, 1), (1, 0), (1, -1), (-1, -1)]

/-- The selection of claim C4 taken at its words (spec-side definition):
among the candidates not in TabooMemory, the one with the highest
normalized probability, equal probabilities resolved in favor of the
candidate produced first. -/
def specSelectClaimC4 (mem : List Pos) (ps : List (ℚ × Pos)) : Option Pos :=
  ((ps.filter (fun e => decide (e.2 ∉ mem))).foldl
    (fun acc e =>
      match acc with
      | none => some e
      | some best => if best.1 < e.1 then some e else some best) none).map Prod.snd

/-- C4 counterexample: from `(0, 1)` of `exC4` the shuffle `exC4order`
produces the candidates `(0, 0)` then `(0, 2)`, both with probability
`1/2`; `(0, 2)` is taboo, `(0, 0)` is not.  The claim picks the highest-
probability non-taboo candidate `(0, 0)`; the code's dict keeps only the
last-produced `(0, 2)` for the key `1/2`, finds it taboo, and returns
`None` — the non-taboo equal-probability candidate was shadowed away. -/
theorem C4_selection_cex :
    exC4order.Perm Colony.directions ∧
      (Colony.Ant.get_index_probabilities exC4 exC4ant exC4order).1.sum ≠ 0 ∧
      Colony.Ant.get_max_probability_pos exC4 exC4ant exC4order = none ∧
      specSelectClaimC4 exC4ant.pos_memory
        (((Colony.Ant.get_index_probabilities exC4 exC4ant exC4order).1.map
            (fun x => x /
              (Colony.Ant.get_index_probabilities exC4 exC4ant exC4order).1.sum)).zip
          (Colony.Ant.get_index_probabilities exC4 exC4ant exC4order).2) = some (0, 0) := by
  refine ⟨by decide, ?_, ?_, ?_⟩
  · norm_num [Colony.Ant.get_index_probabilities, candidateScan,
      Colony.Ant.index_probability, exC4, exC4ant, exC4order]
  · simp +decide [Colony.Ant.get_max_probability_pos, Colony.Ant.get_index_probabilities,
      candidateScan, Colony.Ant.index_probability, Colony.Ant.max, pyDict, dictInsert,
      assocGet, maxScan, List.insertionSort, List.orderedInsert, exC4, exC4ant, exC4order]
  · simp +decide [specSelectClaimC4, Colony.Ant.get_index_probabilities, candidateScan,
      Colony.Ant.index_probability, exC4, exC4ant, exC4order]

/-- Witness for C4 on `exC6` (nonzero denominator): the code's selection
coincides with the last-representative selection. -/
theorem C4_selection_witness :
    (Colony.Ant.get_index_probabilities exC6 exC6ant Colony.directions).1.sum ≠ 0 ∧
      Colony.Ant.get_max_probability_pos exC6 exC6ant Colony.directions =
        specSelectC4 exC6ant.pos_memory
          (((Colony.Ant.get_index_probabilities exC6 exC6ant Colony.directions).1.map
              (fun x => x /
                (Colony.Ant.get_index_probabilities exC6 exC6ant
                  Colony.directions).1.sum)).zip
            (Colony.Ant.get_index_probabilities exC6 exC6ant Colony.directions).2) := by
  have hden : (Colony.Ant.get_index_probabilities exC6 exC6ant Colony.directions).1.sum
      ≠ 0 := by
    norm_num [Colony.Ant.get_index_probabilities, candidateScan,
      Colony.Ant.index_probability, exC6, exC6ant, Colony.directions]
  exact ⟨hden, C4_selection exC6 exC6ant Colony.directions hden⟩
